import Mathlib

/-!
Verification of the Platopia node core against its specification.

The definitions below are a shallow embedding of the C++ sources:
`src/primitives/transaction.{h,cpp}`, `src/chainparams.{h,cpp}`,
`src/miner.cpp` and `src/rpc/interest.cpp`. Machine integers are modelled
as `Int`/`Nat` (with explicit wraparound where the C++ relies on unsigned
overflow), C++ exceptions as `Except`, and the stateful block builder and
the mining work registry as explicit state passing and a step relation.
Hash functions and collaborator calls (Ethash, `ProcessNewBlock`,
`ContextualCheckTransaction`) are abstract parameters: no claim below
depends on their concrete values.
-/

namespace Platopia

/-- Monetary amount: a signed 64-bit quantity in the C++ source (`CAmount`),
modelled as `Int`. One coin is 10^8 base units (`COIN` in `amount.h`). -/
abbrev Amount := Int

/-- One coin in base units. -/
def COIN : Amount := 100000000

/-- Modelled from the spec: `amount.h` is absent from the sources, and the
spec only states that amounts are valid when they lie in `[0, MAX_MONEY]`.
`MAX_MONEY` is therefore kept as an explicit parameter `maxMoney` of every
definition that range-checks amounts. -/
def MoneyRange (maxMoney v : Amount) : Bool :=
  decide (0 ≤ v) && decide (v ≤ maxMoney)

/-- A transaction output (`CTxOut`, `primitives/transaction.h`). The script,
content string and lock time do not enter any value computation proved here;
only `nLockTime` is kept besides the two amounts. -/
structure CTxOut where
  nValue : Amount
  nPrincipal : Amount
  nLockTime : Nat
deriving Repr, DecidableEq

/-- `CTxOut()` as set by `CTxOut::SetNull`: value -1, principal 0. -/
def nullTxOut : CTxOut := { nValue := -1, nPrincipal := 0, nLockTime := 0 }

/-- Transaction flag bit marking a coinbase (`TX_FLAGS_COINBASE = 1`). -/
def TX_FLAGS_COINBASE : Nat := 1

/-- A transaction (`CTransaction`, `primitives/transaction.h`). Inputs play
no role in the output-value functions verified here and are omitted. -/
structure CTransaction where
  nVersion : Int
  nFlags : Nat
  vout : List CTxOut
deriving Repr, DecidableEq

/-- `CTransaction::IsCoinBase`: tests flag bit 0 (`nFlags & TX_FLAGS_COINBASE`). -/
def CTransaction.IsCoinBase (tx : CTransaction) : Bool :=
  decide (tx.nFlags &&& TX_FLAGS_COINBASE ≠ 0)

/-- Loop body of `CTransaction::GetValueOut`
(`primitives/transaction.cpp`, lines 139-149): add each output value to the
running sum, then throw if the value just added or the running sum leaves
the money range. The thrown `std::runtime_error` is an `Except.error`. -/
def getValueOutLoop (maxMoney : Amount) : List CTxOut → Amount → Except String Amount
  | [], acc => Except.ok acc
  | o :: rest, acc =>
      let acc2 := acc + o.nValue
      if !(MoneyRange maxMoney o.nValue) || !(MoneyRange maxMoney acc2) then
        Except.error ("value out of range")
      else
        getValueOutLoop maxMoney rest acc2

/-- `CTransaction::GetValueOut` (`primitives/transaction.cpp`, lines 139-149). -/
def CTransaction.GetValueOut (maxMoney : Amount) (tx : CTransaction) : Except String Amount :=
  getValueOutLoop maxMoney tx.vout 0

/-- Loop body of `CTransaction::GetInterest`
(`primitives/transaction.cpp`, lines 122-137): outputs with zero principal
are skipped entirely (their amounts are never range-checked); for the rest,
`nValue - nPrincipal` is accrued when positive, and the output value, the
output principal and the running sum are then range-checked. -/
def getInterestLoop (maxMoney : Amount) : List CTxOut → Amount → Except String Amount
  | [], acc => Except.ok acc
  | o :: rest, acc =>
      if o.nPrincipal = 0 then
        getInterestLoop maxMoney rest acc
      else
        let acc2 := if o.nPrincipal < o.nValue then acc + (o.nValue - o.nPrincipal) else acc
        if !(MoneyRange maxMoney o.nValue) || !(MoneyRange maxMoney o.nPrincipal)
            || !(MoneyRange maxMoney acc2) then
          Except.error ("value out of range")
        else
          getInterestLoop maxMoney rest acc2

/-- `CTransaction::GetInterest` (`primitives/transaction.cpp`, lines 122-137):
returns 0 for a coinbase without touching the outputs. -/
def CTransaction.GetInterest (maxMoney : Amount) (tx : CTransaction) : Except String Amount :=
  if tx.IsCoinBase then Except.ok 0 else getInterestLoop maxMoney tx.vout 0

/-- Sum of the raw output values of a list of outputs (no range checks). -/
def valueOutSum (l : List CTxOut) : Amount :=
  (l.map fun o => o.nValue).sum

/-- The interest accrued by `getInterestLoop` over a list of outputs:
`nValue - nPrincipal` for every output with `nPrincipal ≠ 0` and
`nPrincipal < nValue`, as the code computes it. -/
def interestOfOutputs : List CTxOut → Amount
  | [] => 0
  | o :: rest =>
      (if o.nPrincipal ≠ 0 ∧ o.nPrincipal < o.nValue then o.nValue - o.nPrincipal else 0)
        + interestOfOutputs rest

/-- The interest of a list of outputs as the spec words it:
`max(0, value - principal)` for each output whose principal is positive. -/
def interestFormula (l : List CTxOut) : Amount :=
  (l.map fun o => if 0 < o.nPrincipal then max 0 (o.nValue - o.nPrincipal) else 0).sum

/-- The consensus parameter fields of `Consensus::Params` read by the code
verified here, as assigned in `chainparams.cpp`. The interest-rate array
holds C++ doubles and enters no claim, so it is omitted. -/
structure ConsensusParams where
  nBlocksPerDay : Nat
  nDaysPerCentury : Nat
  nBlocksPerCentury : Nat
  nSubsidyHalvingInterval : Nat
  nTotalInterest : Amount
  nLockInterestBlocksThreshould : List Int
deriving Repr, DecidableEq

/-- `CMainParams::CMainParams` (`chainparams.cpp`, lines 100-124):
960 blocks per day, 300 days per century, lock tiers in blocks. -/
def mainConsensus : ConsensusParams :=
  { nBlocksPerDay := 960
    nDaysPerCentury := 300
    nBlocksPerCentury := 960 * 300
    nSubsidyHalvingInterval := 960 * 300
    nTotalInterest := 240000000000000000
    nLockInterestBlocksThreshould :=
      [16 * 960, 32 * 960, 64 * 960, 128 * 960, 256 * 960, 512 * 960, 1024 * 960, 1024 * 960] }

/-- `CTestNetParams::CTestNetParams` (`chainparams.cpp`, lines 240-263):
identical monetary parameters to main. -/
def testConsensus : ConsensusParams :=
  { nBlocksPerDay := 960
    nDaysPerCentury := 300
    nBlocksPerCentury := 960 * 300
    nSubsidyHalvingInterval := 960 * 300
    nTotalInterest := 240000000000000000
    nLockInterestBlocksThreshould :=
      [16 * 960, 32 * 960, 64 * 960, 128 * 960, 256 * 960, 512 * 960, 1024 * 960, 1024 * 960] }

/-- `CRegTestParams::CRegTestParams` (`chainparams.cpp`, lines 348-370):
10 blocks per day, 30 days per century. The source never assigns
`nTotalInterest` for regtest; the value 0 here is arbitrary and unused. -/
def regtestConsensus : ConsensusParams :=
  { nBlocksPerDay := 10
    nDaysPerCentury := 30
    nBlocksPerCentury := 10 * 30
    nSubsidyHalvingInterval := 10 * 30
    nTotalInterest := 0
    nLockInterestBlocksThreshould :=
      [16 * 10, 32 * 10, 64 * 10, 128 * 10, 256 * 10, 512 * 10, 1024 * 10, 1024 * 10] }

/-- The threshold assignment shared by all three networks: tier `i` is
`2 ^ (4 + i)` days of blocks for `i ≤ 6`, and tier 7 repeats tier 6. -/
def lockThresholdsSrc (bpd : Nat) : List Int :=
  [16 * (bpd : Int), 32 * (bpd : Int), 64 * (bpd : Int), 128 * (bpd : Int),
    256 * (bpd : Int), 512 * (bpd : Int), 1024 * (bpd : Int), 1024 * (bpd : Int)]

/-- The tier sequence exactly as the claim words it: literally
`(16, 32, 64, 128, 256, 512, 1024, 1024 * blocksPerDay)`, in blocks. -/
def lockThresholdsClaim (c : ConsensusParams) : List Int :=
  [16, 32, 64, 128, 256, 512, 1024, 1024 * (c.nBlocksPerDay : Int)]

/-- `CChainParams::centuryForBlock` (`chainparams.h`, lines 137-139):
`(blockHeight - 1) / nBlocksPerCentury + 1` where `blockHeight` is a
`uint32_t`, so at height 0 the subtraction wraps to `2^32 - 1`. -/
def centuryForBlock (c : ConsensusParams) (blockHeight : Nat) : Nat :=
  ((blockHeight + (2 ^ 32 - 1)) % 2 ^ 32) / c.nBlocksPerCentury + 1

/-- `CChainParams::OldChainSubsidyForBlock` (`chainparams.cpp`, lines
492-496): `1560 * COIN * pow(nDecayRatio, centuryForBlock(h) - 1)` cast to
`CAmount`. Every network sets `nDecayRatio = 0.9`, so the real value is
`156000000000 * (9/10) ^ (century - 1)`; the C++ evaluates the power in
double precision and truncates toward zero, modelled here as the exact
rational power with truncation as `Nat` division (the quantity is
nonnegative). -/
def OldChainSubsidyForBlock (c : ConsensusParams) (blockHeight : Nat) : Amount :=
  ((156000000000 * 9 ^ (centuryForBlock c blockHeight - 1))
      / 10 ^ (centuryForBlock c blockHeight - 1) : Nat)

/-- The century function exactly as the claim words it:
`ceiling(h / blocksPerCentury)` with height 0 treated as century 1. -/
def centuryClaim (c : ConsensusParams) (h : Nat) : Nat :=
  if h = 0 then 1 else (h + c.nBlocksPerCentury - 1) / c.nBlocksPerCentury

/-- The subsidy exactly as the claim words it:
`floor(1560 * COIN * decayRatio ^ (centuryClaim(h) - 1))`. -/
def subsidyClaim (c : ConsensusParams) (h : Nat) : Amount :=
  ((156000000000 * 9 ^ (centuryClaim c h - 1)) / 10 ^ (centuryClaim c h - 1) : Nat)

/-- `CChainParams::AdjustToLockInterestThreshold` (`chainparams.h`,
lines 115-124): the loop runs `i` from 7 down to 0 and returns the first
tier with `lockBlocks >= thresholds[i]`, or 0 when none matches; it is
rendered here with the eight iterations unrolled. -/
def AdjustToLockInterestThreshold (c : ConsensusParams) (lockBlocks : Int) : Int :=
  if c.nLockInterestBlocksThreshould.getD 7 0 ≤ lockBlocks then
    c.nLockInterestBlocksThreshould.getD 7 0
  else if c.nLockInterestBlocksThreshould.getD 6 0 ≤ lockBlocks then
    c.nLockInterestBlocksThreshould.getD 6 0
  else if c.nLockInterestBlocksThreshould.getD 5 0 ≤ lockBlocks then
    c.nLockInterestBlocksThreshould.getD 5 0
  else if c.nLockInterestBlocksThreshould.getD 4 0 ≤ lockBlocks then
    c.nLockInterestBlocksThreshould.getD 4 0
  else if c.nLockInterestBlocksThreshould.getD 3 0 ≤ lockBlocks then
    c.nLockInterestBlocksThreshould.getD 3 0
  else if c.nLockInterestBlocksThreshould.getD 2 0 ≤ lockBlocks then
    c.nLockInterestBlocksThreshould.getD 2 0
  else if c.nLockInterestBlocksThreshould.getD 1 0 ≤ lockBlocks then
    c.nLockInterestBlocksThreshould.getD 1 0
  else if c.nLockInterestBlocksThreshould.getD 0 0 ≤ lockBlocks then
    c.nLockInterestBlocksThreshould.getD 0 0
  else 0

/-- The `locktime` result of the `getlockinterest` RPC
(`rpc/interest.cpp`, lines 221-262): `locktime = lockdays * blocksPerDay`,
rejected when nonpositive, otherwise adjusted to the largest tier. The
`interest` result calls collaborator code absent from the sources and is
not modelled. -/
def getlockinterestLocktime (c : ConsensusParams) (lockdays : Int) : Except String Int :=
  let locktime := lockdays * (c.nBlocksPerDay : Int)
  if locktime ≤ 0 then Except.error ("Invalid locktime")
  else Except.ok (AdjustToLockInterestThreshold c locktime)

/-- Transaction identifiers, modelled as abstract numbers (the hash plays
no role beyond identity). -/
abbrev TxId := Nat

/-- Modelled from the spec: `txmempool.{h,cpp}` is absent from the sources.
A mempool entry carries the cached statistics the miner reads: fee, size,
sig-op count, cached interest, the set of in-mempool parents
(`GetMemPoolParents`), and the cached ancestor count including itself
(`GetCountWithAncestors`). -/
structure MempoolEntry where
  txid : TxId
  tx : CTransaction
  fee : Amount
  size : Nat
  sigOpCount : Nat
  interest : Amount
  parents : List TxId
  countWithAncestors : Nat
deriving Repr, DecidableEq

/-- Direct dependency between two pool entries: `a` is an in-mempool
parent of `b`. -/
def ParentRel (pool : List MempoolEntry) (a b : MempoolEntry) : Prop :=
  a ∈ pool ∧ b ∈ pool ∧ a.txid ∈ b.parents

/-- In-mempool ancestry: the transitive closure of `ParentRel`. -/
def AncestorOf (pool : List MempoolEntry) : MempoolEntry → MempoolEntry → Prop :=
  Relation.TransGen (ParentRel pool)

/-- The mutable bookkeeping of `BlockAssembler` during one
`CreateNewBlock` call (`miner.cpp`): the transactions selected so far
with their entries, the `inBlock` id set, and the running counters. -/
structure BState where
  vtxEntries : List MempoolEntry
  inBlock : List TxId
  nBlockSize : Nat
  nBlockSigOps : Nat
  nBlockTx : Nat
  nFees : Amount
  nInterest : Amount
  lastFewTxs : Nat
  blockFinished : Bool
deriving Repr, DecidableEq

/-- `BlockAssembler::resetBlock` (`miner.cpp`, lines 125-139): 1000 bytes
and 100 sig-ops reserved for the coinbase, all counters zero. -/
def resetBlock : BState :=
  { vtxEntries := []
    inBlock := []
    nBlockSize := 1000
    nBlockSigOps := 100
    nBlockTx := 0
    nFees := 0
    nInterest := 0
    lastFewTxs := 0
    blockFinished := false }

/-- `BlockAssembler::AddToBlock` (`miner.cpp`, lines 350-371): append the
transaction, record its fee and sig-ops, accumulate size, fee and interest,
and mark the entry as in-block. -/
def AddToBlock (st : BState) (e : MempoolEntry) : BState :=
  { st with
    vtxEntries := st.vtxEntries ++ [e]
    inBlock := st.inBlock ++ [e.txid]
    nBlockSize := st.nBlockSize + e.size
    nBlockTx := st.nBlockTx + 1
    nBlockSigOps := st.nBlockSigOps + e.sigOpCount
    nFees := st.nFees + e.fee
    nInterest := st.nInterest + e.interest }

/-- The inputs a `BlockAssembler` holds fixed during one call: the mempool
snapshot, the clamped maximum generated block size, and two collaborators
absent from the sources, `GetMaxBlockSigOpsCount` and
`ContextualCheckTransaction`, kept abstract. -/
structure BuildCtx where
  pool : List MempoolEntry
  nMaxGeneratedBlockSize : Nat
  maxBlockSigOpsCount : Nat → Nat
  ctxOk : MempoolEntry → Bool

/-- `BlockAssembler::isStillDependent` (`miner.cpp`, lines 251-258): some
in-mempool parent is not yet in the block. -/
def isStillDependent (ctx : BuildCtx) (st : BState) (e : MempoolEntry) : Bool :=
  e.parents.any fun p => (ctx.pool.any fun q => q.txid == p) && !(st.inBlock.contains p)

/-- `BlockAssembler::TestForBlock` (`miner.cpp`, lines 309-348), returning
the verdict together with the updated flags (`blockFinished`,
`lastFewTxs`). All sizes are unsigned; `nMaxGeneratedBlockSize` is at
least 1000 by the clamp in `ComputeMaxGeneratedBlockSize`, so the C++
unsigned subtractions agree with truncated `Nat` subtraction. -/
def TestForBlock (ctx : BuildCtx) (st : BState) (e : MempoolEntry) : Bool × BState :=
  let blockSizeWithTx := st.nBlockSize + e.size
  if ctx.nMaxGeneratedBlockSize ≤ blockSizeWithTx then
    if ctx.nMaxGeneratedBlockSize - 100 < st.nBlockSize ∨ 50 < st.lastFewTxs then
      (false, { st with blockFinished := true })
    else if ctx.nMaxGeneratedBlockSize - 1000 < st.nBlockSize then
      (false, { st with lastFewTxs := st.lastFewTxs + 1 })
    else
      (false, st)
  else
    let maxBlockSigOps := ctx.maxBlockSigOpsCount blockSizeWithTx
    if maxBlockSigOps ≤ st.nBlockSigOps + e.sigOpCount then
      if maxBlockSigOps - 2 < st.nBlockSigOps then
        (false, { st with blockFinished := true })
      else
        (false, st)
    else
      if ctx.ctxOk e then (true, st) else (false, st)

/-- `BlockAssembler::TestPackage` (`miner.cpp`, lines 272-282). -/
def TestPackage (ctx : BuildCtx) (st : BState) (packageSize packageSigOps : Nat) : Bool :=
  let blockSizeWithPackage := st.nBlockSize + packageSize
  if ctx.nMaxGeneratedBlockSize ≤ blockSizeWithPackage then false
  else if ctx.maxBlockSigOpsCount blockSizeWithPackage ≤ st.nBlockSigOps + packageSigOps then false
  else true

/-- `BlockAssembler::TestPackageTransactions` (`miner.cpp`, lines
287-307): each package member passes the contextual check and the running
potential block size stays below the cap. -/
def TestPackageTransactions (ctx : BuildCtx) : Nat → List MempoolEntry → Bool
  | _, [] => true
  | potentialBlockSize, e :: rest =>
      if !(ctx.ctxOk e) then false
      else if ctx.nMaxGeneratedBlockSize ≤ potentialBlockSize + e.size then false
      else TestPackageTransactions ctx (potentialBlockSize + e.size) rest

/-- `BlockAssembler::SortForBlock` (`miner.cpp`, lines 419-429): sort the
package by ancestor count, ascending. Modelled from the spec: the
comparator `CompareTxIterByAncestorCount` lives in `miner.h`, absent from
the sources; per the in-source comment it orders by the cached
`GetCountWithAncestors`. -/
def SortForBlock (package : List MempoolEntry) : List MempoolEntry :=
  package.mergeSort fun a b => decide (a.countWithAncestors ≤ b.countWithAncestors)

/-- One state change of the two selection phases of
`BlockAssembler::CreateNewBlock` (`miner.cpp`):

* `priorityAdd` and `priorityCheckFail` model one iteration of
  `addPriorityTxs` (lines 573-653) on a popped entry that is not still
  dependent: on a passed `TestForBlock` the entry is added, otherwise only
  the flags change. The heap order is left nondeterministic.
* `packageAdd` models one successful iteration of `addPackageTxs` (lines
  440-571): `anc` is the in-mempool ancestor set of the candidate with
  already-included entries removed and the candidate inserted (modelled
  from the spec, since `CTxMemPool::CalculateMemPoolAncestors` is absent
  from the sources), the package passes `TestPackage` and
  `TestPackageTransactions` with its cached package statistics, and the
  members enter the block sorted by ancestor count. -/
inductive BuildStep (ctx : BuildCtx) : BState → BState → Prop where
  | priorityAdd (st : BState) (e : MempoolEntry)
      (hpool : e ∈ ctx.pool)
      (hnotin : e.txid ∉ st.inBlock)
      (hnotfin : st.blockFinished = false)
      (hdep : isStillDependent ctx st e = false)
      (htest : (TestForBlock ctx st e).1 = true) :
      BuildStep ctx st (AddToBlock st e)
  | priorityCheckFail (st : BState) (e : MempoolEntry)
      (hpool : e ∈ ctx.pool)
      (hnotfin : st.blockFinished = false)
      (htest : (TestForBlock ctx st e).1 = false) :
      BuildStep ctx st (TestForBlock ctx st e).2
  | packageAdd (st : BState) (iter : MempoolEntry) (anc : List MempoolEntry)
      (packageSize packageSigOps : Nat)
      (hpool : iter ∈ ctx.pool)
      (hnotin : iter.txid ∉ st.inBlock)
      (hanc : ∀ a, a ∈ anc ↔
        (a ∈ ctx.pool ∧ (a = iter ∨ (AncestorOf ctx.pool a iter ∧ a.txid ∉ st.inBlock))))
      (hnodup : (anc.map MempoolEntry.txid).Nodup)
      (htp : TestPackage ctx st packageSize packageSigOps = true)
      (htpt : TestPackageTransactions ctx st.nBlockSize anc = true) :
      BuildStep ctx st (List.foldl AddToBlock st (SortForBlock anc))

/-- All builder states reachable by the two selection phases. -/
def BuildReachable (ctx : BuildCtx) : BState → BState → Prop :=
  Relation.ReflTransGen (BuildStep ctx)

/-- A block (`CBlock`, `primitives/block.h`), restricted to the header
fields and transaction list the mining code reads and writes. Hashes are
abstract numbers; merkle root, time and bits are collaborator-computed
and enter no claim. -/
structure CBlock where
  hashPrevBlock : Nat
  nBlockHeight : Nat
  nChainInterest : Amount
  nNonce : Nat
  hashMix : Nat
  vtx : List CTransaction
deriving Repr, DecidableEq

/-- The parent chain entry (`CBlockIndex`) fields read by
`CreateNewBlock`. -/
structure BlockIndex where
  nHeight : Nat
  nChainInterest : Amount
  blockHash : Nat
deriving Repr, DecidableEq

/-- Modelled from the spec: `COINBASE_MATURITY` lives in `consensus.h`,
absent from the sources; the Bitcoin lineage and the genesis coinbase
both use 100. Its value enters no claim. -/
def COINBASE_MATURITY : Nat := 100

/-- The coinbase constructed at the end of `CreateNewBlock` (`miner.cpp`,
lines 198-211): flags `TX_FLAGS_COINBASE`, a single output paying
`nFees + GetBlockSubsidy(nHeight)` with zero principal. `GetBlockSubsidy`
lives in `validation.cpp`, absent from the sources, and is the abstract
parameter `subsidy`. -/
def createCoinbaseTx (subsidy : Nat → Amount) (nHeight : Nat) (nFees : Amount) : CTransaction :=
  { nVersion := 1
    nFlags := TX_FLAGS_COINBASE
    vout := [{ nValue := nFees + subsidy nHeight, nPrincipal := 0,
               nLockTime := COINBASE_MATURITY }] }

/-- The block template (`CBlockTemplate`): the block and the per-entry
fee list (`vTxFees`, whose slot 0 holds `-1 * nFees` as in the source). -/
structure CBlockTemplate where
  block : CBlock
  vTxFees : List Amount
deriving Repr, DecidableEq

/-- The template produced by `BlockAssembler::CreateNewBlock`
(`miner.cpp`, lines 149-249) from the final builder state: the dummy
coinbase at slot 0 is replaced by the real one, the header inherits
`nChainInterest = parent.nChainInterest + nInterest`, the height is
`parent.nHeight + 1`, `hashPrevBlock` is copied and `nNonce` is zeroed. -/
def CreateNewBlockResult (subsidy : Nat → Amount) (pindexPrev : BlockIndex)
    (stf : BState) : CBlockTemplate :=
  let nHeight := pindexPrev.nHeight + 1
  { block :=
      { hashPrevBlock := pindexPrev.blockHash
        nBlockHeight := nHeight
        nChainInterest := pindexPrev.nChainInterest + stf.nInterest
        nNonce := 0
        hashMix := 0
        vtx := createCoinbaseTx subsidy nHeight stf.nFees
                 :: stf.vtxEntries.map (fun e => e.tx) }
    vTxFees := (-1 * stf.nFees) :: stf.vtxEntries.map (fun e => e.fee) }

/-- Modelled from the spec: block validation (`validation.cpp`, absent
from the sources) enforces the lifetime interest cap; the spec states that
`chainInterest` stays bounded by `totalInterest`, so an accepted block
satisfies this predicate. -/
def ChainInterestAccepted (totalInterest : Amount) (b : CBlock) : Prop :=
  b.nChainInterest ≤ totalInterest

/-- One chain extension: the child was produced by `CreateNewBlock` on
top of its parent (some reachable final builder state) and passed the
spec-modelled acceptance check on the interest cap. -/
def ChainExtension (ctx : BuildCtx) (totalInterest : Amount) (subsidy : Nat → Amount)
    (parent child : CBlock) : Prop :=
  ∃ (prev : BlockIndex) (stf : BState),
    prev.nChainInterest = parent.nChainInterest
      ∧ BuildReachable ctx resetBlock stf
      ∧ child = (CreateNewBlockResult subsidy prev stf).block
      ∧ ChainInterestAccepted totalInterest child

/-- Bookkeeping invariant of the builder state: the running counters
agree with the selected entries, the `inBlock` set is exactly their ids,
and every selected entry comes from the mempool snapshot. -/
def BuilderBasicInv (ctx : BuildCtx) (st : BState) : Prop :=
  st.nFees = (st.vtxEntries.map MempoolEntry.fee).sum
    ∧ st.nInterest = (st.vtxEntries.map MempoolEntry.interest).sum
    ∧ st.inBlock = st.vtxEntries.map MempoolEntry.txid
    ∧ ∀ e ∈ st.vtxEntries, e ∈ ctx.pool

/-- Ordering invariant of the builder state: the in-mempool ancestors of
every selected entry are already in the block, and no selected entry is
an ancestor of an earlier one. -/
def OrderedInv (ctx : BuildCtx) (st : BState) : Prop :=
  (∀ x ∈ st.vtxEntries, ∀ a, AncestorOf ctx.pool a x → a.txid ∈ st.inBlock)
    ∧ List.Pairwise (fun a b => ¬ AncestorOf ctx.pool b a) st.vtxEntries

/-- A concrete builder context over an empty mempool. -/
def emptyBuildCtx : BuildCtx :=
  { pool := [], nMaxGeneratedBlockSize := 1000000,
    maxBlockSigOpsCount := fun _ => 20000, ctxOk := fun _ => true }

/-- A concrete parent chain entry. -/
def prevIndex0 : BlockIndex := { nHeight := 0, nChainInterest := 0, blockHash := 0 }

/-- A concrete mempool entry with no parents. -/
def entryA : MempoolEntry :=
  { txid := 1, tx := { nVersion := 1, nFlags := 0, vout := [] }, fee := 3, size := 10,
    sigOpCount := 0, interest := 0, parents := [], countWithAncestors := 1 }

/-- A concrete mempool entry depending on `entryA`. -/
def entryB : MempoolEntry :=
  { txid := 2, tx := { nVersion := 1, nFlags := 0, vout := [] }, fee := 4, size := 10,
    sigOpCount := 0, interest := 0, parents := [1], countWithAncestors := 2 }

/-- A concrete builder context over the two-entry mempool
`[entryA, entryB]`. -/
def pairBuildCtx : BuildCtx :=
  { pool := [entryA, entryB], nMaxGeneratedBlockSize := 1000000,
    maxBlockSigOpsCount := fun _ => 20000, ctxOk := fun _ => true }

/-- A work-registry entry (`Work`, `miner.h` via `miner.cpp`):
`{block, blockEthash, boundary, done, miningThreads, deprecated}`. -/
structure Work where
  block : CBlock
  blockEthash : Nat
  boundary : Nat
  done : Bool
  miningThreads : Int
  deprecated : Bool
deriving Repr, DecidableEq

/-- `MineWorker::AddWork` (`miner.cpp`, lines 1159-1173): compute the
Ethash of the base header (the abstract `ethashOf`), return an existing
entry when one matches on BOTH `blockEthash` and `boundary`, otherwise
append a fresh entry. Returns the new list and the produced entry. -/
def AddWork (ethashOf : CBlock → Nat) (listWork : List Work) (block : CBlock)
    (boundary : Nat) : List Work × Work :=
  let blockEthash := ethashOf block
  match listWork.find? (fun w => w.blockEthash == blockEthash && w.boundary == boundary) with
  | some w => (listWork, w)
  | none =>
      let newWork : Work :=
        { block := block, blockEthash := blockEthash, boundary := boundary,
          done := false, miningThreads := 0, deprecated := false }
      (listWork ++ [newWork], newWork)

/-- `MineWorker::SetWorkDone` (`miner.cpp`, lines 1218-1225): set `done`
on every entry whose `blockEthash` matches. -/
def SetWorkDone (listWork : List Work) (blockEthash : Nat) : List Work :=
  listWork.map fun w => if w.blockEthash = blockEthash then { w with done := true } else w

/-- `MineWorker::UpdateWork` (`miner.cpp`, lines 1196-1204): write nonce
and mix hash into every entry whose `blockEthash` matches. -/
def UpdateWork (listWork : List Work) (blockEthash nNonce hashMix : Nat) : List Work :=
  listWork.map fun w =>
    if w.blockEthash = blockEthash then
      { w with block := { w.block with nNonce := nNonce, hashMix := hashMix } }
    else w

/-- `MineWorker::GetWork(blockEthash)` (`miner.cpp`, lines 1187-1194):
first entry with the given `blockEthash`, if any. -/
def GetWorkByEthash (listWork : List Work) (blockEthash : Nat) : Option Work :=
  listWork.find? fun w => w.blockEthash == blockEthash

/-- `MineWorker::RemoveWork` (`miner.cpp`, lines 1206-1210): drop every
entry with the given `blockEthash`. -/
def RemoveWork (listWork : List Work) (blockEthash : Nat) : List Work :=
  listWork.filter fun w => !(w.blockEthash == blockEthash)

/-- `MineWorker::ProcessBlockFound` (`miner.cpp`, lines 1240-1270): drop
the block as stale when its parent is no longer the tip, otherwise hand it
to the external `ProcessNewBlock` (the abstract `processNewBlock`) and
propagate its verdict. The first component is the returned Bool; the
second records whether `ProcessNewBlock` was invoked. The wallet
request-count bookkeeping is a side effect on the wallet only and is
omitted. -/
def ProcessBlockFound (chainTipHash : Nat) (processNewBlock : CBlock → Bool)
    (pblock : CBlock) : Bool × Bool :=
  if pblock.hashPrevBlock ≠ chainTipHash then (false, false)
  else (processNewBlock pblock, true)

/-- `MineWorker::SubmitWork` (`miner.cpp`, lines 1345-1361): mark done and
update nonce and mix for the named entry, then look it up; a missing entry
returns false. Otherwise the block is handed to `ProcessBlockFound`; on
rejection the entry is removed. Components: returned Bool, resulting work
list, and whether a block was handed to `ProcessBlockFound`. -/
def SubmitWork (chainTipHash : Nat) (processNewBlock : CBlock → Bool)
    (listWork : List Work) (blockEthash nNonce mixHash : Nat) :
    Bool × List Work × Bool :=
  let l1 := SetWorkDone listWork blockEthash
  let l2 := UpdateWork l1 blockEthash nNonce mixHash
  match GetWorkByEthash l2 blockEthash with
  | none => (false, l2, false)
  | some pwork =>
      if (ProcessBlockFound chainTipHash processNewBlock pwork.block).1 then
        (true, l2, true)
      else
        (false, RemoveWork l2 pwork.blockEthash, true)

/-- A transaction used as a concrete input: one output whose principal 11
lies outside the money range `[0, 10]` while its value 1 is in range. -/
def c8txBad : CTransaction :=
  { nVersion := 1, nFlags := 0, vout := [{ nValue := 1, nPrincipal := 11, nLockTime := 0 }] }

/-- A concrete coinbase transaction. -/
def c8txCoinbase : CTransaction :=
  { nVersion := 1, nFlags := 1, vout := [{ nValue := 5, nPrincipal := 2, nLockTime := 0 }] }

/-- A concrete in-range transaction: total value 12, interest 5. -/
def c8txPlain : CTransaction :=
  { nVersion := 1, nFlags := 0,
    vout := [{ nValue := 5, nPrincipal := 0, nLockTime := 0 },
             { nValue := 7, nPrincipal := 2, nLockTime := 10 }] }

/-- A concrete block used as input to the work registry operations. -/
def cBlock0 : CBlock :=
  { hashPrevBlock := 0, nBlockHeight := 1, nChainInterest := 0,
    nNonce := 0, hashMix := 0, vtx := [] }

/-- A concrete block whose parent hash 1 differs from chain tip hash 0. -/
def cBlockStale : CBlock :=
  { hashPrevBlock := 1, nBlockHeight := 1, nChainInterest := 0,
    nNonce := 0, hashMix := 0, vtx := [] }

/-- A concrete work entry with `blockEthash = 3`. -/
def cWork3 : Work :=
  { block := cBlock0, blockEthash := 3, boundary := 5,
    done := false, miningThreads := 0, deprecated := false }

theorem valueOutSum_cons (o : CTxOut) (rest : List CTxOut) :
    valueOutSum (o :: rest) = o.nValue + valueOutSum rest := by
  simp [valueOutSum]

theorem getValueOutLoop_ok (maxMoney : Amount) (l : List CTxOut) (acc v : Amount)
    (h : getValueOutLoop maxMoney l acc = Except.ok v) : v = acc + valueOutSum l := by
  induction l generalizing acc with
  | nil =>
      simp only [getValueOutLoop] at h
      cases h
      simp [valueOutSum]
  | cons o rest ih =>
      simp only [getValueOutLoop] at h
      by_cases hc : (!(MoneyRange maxMoney o.nValue) || !(MoneyRange maxMoney (acc + o.nValue))) = true
      · rw [if_pos hc] at h
        cases h
      · rw [if_neg hc] at h
        have := ih (acc + o.nValue) h
        rw [this, valueOutSum_cons]
        ring

theorem getValueOutLoop_error_iff (maxMoney : Amount) (l : List CTxOut) (acc : Amount) :
    (∃ msg, getValueOutLoop maxMoney l acc = Except.error msg) ↔
      (∃ k, k < l.length ∧
        (MoneyRange maxMoney (l.getD k nullTxOut).nValue = false
          ∨ MoneyRange maxMoney (acc + valueOutSum (l.take (k + 1))) = false)) := by
  induction l generalizing acc with
  | nil =>
      simp [getValueOutLoop]
  | cons o rest ih =>
      constructor
      · rintro ⟨msg, hmsg⟩
        simp only [getValueOutLoop] at hmsg
        by_cases hc : (!(MoneyRange maxMoney o.nValue) || !(MoneyRange maxMoney (acc + o.nValue))) = true
        · refine ⟨0, by simp, ?_⟩
          simp only [Bool.or_eq_true, Bool.not_eq_true'] at hc
          rcases hc with h | h
          · exact Or.inl (by simpa using h)
          · refine Or.inr ?_
            simpa [valueOutSum] using h
        · rw [if_neg hc] at hmsg
          obtain ⟨k, hk, hor⟩ := (ih (acc + o.nValue)).mp ⟨msg, hmsg⟩
          exact ⟨k + 1, by simpa using Nat.succ_lt_succ hk,
            by simpa [valueOutSum_cons, add_assoc] using hor⟩
      · rintro ⟨k, hk, hor⟩
        simp only [getValueOutLoop]
        by_cases hc : (!(MoneyRange maxMoney o.nValue) || !(MoneyRange maxMoney (acc + o.nValue))) = true
        · rw [if_pos hc]
          exact ⟨_, rfl⟩
        · rw [if_neg hc]
          apply (ih (acc + o.nValue)).mpr
          simp only [Bool.or_eq_true, Bool.not_eq_true', not_or, Bool.not_eq_false] at hc
          match k with
          | 0 =>
              exfalso
              rcases hor with h | h
              · exact absurd (by simpa using h) (by simp [hc.1])
              · exact absurd (by simpa [valueOutSum] using h) (by simp [hc.2])
          | k + 1 =>
              have hk2 : k < rest.length := by simpa using Nat.lt_of_succ_lt_succ hk
              exact ⟨k, hk2, by simpa [valueOutSum_cons, add_assoc] using hor⟩

theorem getInterestLoop_ok (maxMoney : Amount) (l : List CTxOut) (acc v : Amount)
    (h : getInterestLoop maxMoney l acc = Except.ok v) : v = acc + interestOfOutputs l := by
  induction l generalizing acc with
  | nil =>
      simp only [getInterestLoop] at h
      cases h
      simp [interestOfOutputs]
  | cons o rest ih =>
      simp only [getInterestLoop] at h
      by_cases hp : o.nPrincipal = 0
      · rw [if_pos hp] at h
        have := ih acc h
        rw [this]
        simp [interestOfOutputs, hp]
      · rw [if_neg hp] at h
        by_cases hc : (!(MoneyRange maxMoney o.nValue) || !(MoneyRange maxMoney o.nPrincipal)
            || !(MoneyRange maxMoney
                  (if o.nPrincipal < o.nValue then acc + (o.nValue - o.nPrincipal) else acc))) = true
        · rw [if_pos hc] at h
          cases h
        · rw [if_neg hc] at h
          have hrec := ih _ h
          rw [hrec]
          by_cases hv : o.nPrincipal < o.nValue
          · simp only [interestOfOutputs, if_pos hv, if_pos (And.intro hp hv)]
            ring
          · simp only [interestOfOutputs, if_neg hv]
            rw [if_neg (fun hand => hv hand.2)]
            ring

theorem interestOfOutputs_cons (o : CTxOut) (rest : List CTxOut) :
    interestOfOutputs (o :: rest)
      = (if o.nPrincipal ≠ 0 ∧ o.nPrincipal < o.nValue then o.nValue - o.nPrincipal else 0)
          + interestOfOutputs rest := rfl

theorem getInterestLoop_error_iff (maxMoney : Amount) (l : List CTxOut) (acc : Amount) :
    (∃ msg, getInterestLoop maxMoney l acc = Except.error msg) ↔
      (∃ k, k < l.length ∧ (l.getD k nullTxOut).nPrincipal ≠ 0 ∧
        (MoneyRange maxMoney (l.getD k nullTxOut).nValue = false
          ∨ MoneyRange maxMoney (l.getD k nullTxOut).nPrincipal = false
          ∨ MoneyRange maxMoney (acc + interestOfOutputs (l.take (k + 1))) = false)) := by
  induction l generalizing acc with
  | nil =>
      simp [getInterestLoop]
  | cons o rest ih =>
      by_cases hp : o.nPrincipal = 0
      · constructor
        · rintro ⟨msg, hmsg⟩
          simp only [getInterestLoop, if_pos hp] at hmsg
          obtain ⟨k, hk, hne, hor⟩ := (ih acc).mp ⟨msg, hmsg⟩
          exact ⟨k + 1, by simpa using Nat.succ_lt_succ hk, by simpa using hne,
            by simpa [interestOfOutputs_cons, hp] using hor⟩
        · rintro ⟨k, hk, hne, hor⟩
          simp only [getInterestLoop, if_pos hp]
          match k with
          | 0 => exact absurd hp (by simpa using hne)
          | k + 1 =>
              have hk2 : k < rest.length := by simpa using Nat.lt_of_succ_lt_succ hk
              exact (ih acc).mpr ⟨k, hk2, by simpa using hne,
                by simpa [interestOfOutputs_cons, hp] using hor⟩
      · by_cases hv : o.nPrincipal < o.nValue
        · constructor
          · rintro ⟨msg, hmsg⟩
            simp only [getInterestLoop, if_neg hp, if_pos hv] at hmsg
            by_cases hc : (!(MoneyRange maxMoney o.nValue) || !(MoneyRange maxMoney o.nPrincipal)
                || !(MoneyRange maxMoney (acc + (o.nValue - o.nPrincipal)))) = true
            · refine ⟨0, by simp, by simpa using hp, ?_⟩
              simp only [Bool.or_eq_true, Bool.not_eq_true'] at hc
              rcases hc with (h | h) | h
              · exact Or.inl (by simpa using h)
              · exact Or.inr (Or.inl (by simpa using h))
              · exact Or.inr (Or.inr (by simpa [interestOfOutputs_cons, interestOfOutputs, hp, hv] using h))
            · rw [if_neg hc] at hmsg
              obtain ⟨k, hk, hne, hor⟩ := (ih (acc + (o.nValue - o.nPrincipal))).mp ⟨msg, hmsg⟩
              exact ⟨k + 1, by simpa using Nat.succ_lt_succ hk, by simpa using hne,
                by simpa [interestOfOutputs_cons, hp, hv, add_assoc] using hor⟩
          · rintro ⟨k, hk, hne, hor⟩
            simp only [getInterestLoop, if_neg hp, if_pos hv]
            by_cases hc : (!(MoneyRange maxMoney o.nValue) || !(MoneyRange maxMoney o.nPrincipal)
                || !(MoneyRange maxMoney (acc + (o.nValue - o.nPrincipal)))) = true
            · rw [if_pos hc]
              exact ⟨_, rfl⟩
            · rw [if_neg hc]
              apply (ih (acc + (o.nValue - o.nPrincipal))).mpr
              simp only [Bool.or_eq_true, Bool.not_eq_true', not_or, Bool.not_eq_false] at hc
              match k with
              | 0 =>
                  exfalso
                  rcases hor with h | h | h
                  · exact absurd (by simpa using h) (by simp [hc.1.1])
                  · exact absurd (by simpa using h) (by simp [hc.1.2])
                  · exact absurd (by simpa [interestOfOutputs_cons, interestOfOutputs, hp, hv] using h)
                      (by simp [hc.2])
              | k + 1 =>
                  have hk2 : k < rest.length := by simpa using Nat.lt_of_succ_lt_succ hk
                  exact ⟨k, hk2, by simpa using hne,
                    by simpa [interestOfOutputs_cons, hp, hv, add_assoc] using hor⟩
        · constructor
          · rintro ⟨msg, hmsg⟩
            simp only [getInterestLoop, if_neg hp, if_neg hv] at hmsg
            by_cases hc : (!(MoneyRange maxMoney o.nValue) || !(MoneyRange maxMoney o.nPrincipal)
                || !(MoneyRange maxMoney acc)) = true
            · refine ⟨0, by simp, by simpa using hp, ?_⟩
              simp only [Bool.or_eq_true, Bool.not_eq_true'] at hc
              rcases hc with (h | h) | h
              · exact Or.inl (by simpa using h)
              · exact Or.inr (Or.inl (by simpa using h))
              · exact Or.inr (Or.inr (by simpa [interestOfOutputs_cons, interestOfOutputs, hp, hv] using h))
            · rw [if_neg hc] at hmsg
              obtain ⟨k, hk, hne, hor⟩ := (ih acc).mp ⟨msg, hmsg⟩
              exact ⟨k + 1, by simpa using Nat.succ_lt_succ hk, by simpa using hne,
                by simpa [interestOfOutputs_cons, hp, hv] using hor⟩
          · rintro ⟨k, hk, hne, hor⟩
            simp only [getInterestLoop, if_neg hp, if_neg hv]
            by_cases hc : (!(MoneyRange maxMoney o.nValue) || !(MoneyRange maxMoney o.nPrincipal)
                || !(MoneyRange maxMoney acc)) = true
            · rw [if_pos hc]
              exact ⟨_, rfl⟩
            · rw [if_neg hc]
              apply (ih acc).mpr
              simp only [Bool.or_eq_true, Bool.not_eq_true', not_or, Bool.not_eq_false] at hc
              match k with
              | 0 =>
                  exfalso
                  rcases hor with h | h | h
                  · exact absurd (by simpa using h) (by simp [hc.1.1])
                  · exact absurd (by simpa using h) (by simp [hc.1.2])
                  · exact absurd (by simpa [interestOfOutputs_cons, interestOfOutputs, hp, hv] using h)
                      (by simp [hc.2])
              | k + 1 =>
                  have hk2 : k < rest.length := by simpa using Nat.lt_of_succ_lt_succ hk
                  exact ⟨k, hk2, by simpa using hne,
                    by simpa [interestOfOutputs_cons, hp, hv] using hor⟩

theorem interestFormula_cons (o : CTxOut) (rest : List CTxOut) :
    interestFormula (o :: rest)
      = (if 0 < o.nPrincipal then max 0 (o.nValue - o.nPrincipal) else 0)
          + interestFormula rest := by
  simp [interestFormula]

theorem interestFormula_nonneg (l : List CTxOut) : 0 ≤ interestFormula l := by
  induction l with
  | nil => simp [interestFormula]
  | cons o rest ih =>
      rw [interestFormula_cons]
      have h0 : (0:Amount) ≤ (if 0 < o.nPrincipal then max 0 (o.nValue - o.nPrincipal) else 0) := by
        split
        · exact le_max_left 0 _
        · exact le_refl 0
      exact add_nonneg h0 ih

theorem getInterestLoop_ok_spec (maxMoney : Amount) (l : List CTxOut) (acc v : Amount)
    (h : getInterestLoop maxMoney l acc = Except.ok v) : v = acc + interestFormula l := by
  induction l generalizing acc with
  | nil =>
      simp only [getInterestLoop] at h
      cases h
      simp [interestFormula]
  | cons o rest ih =>
      simp only [getInterestLoop] at h
      by_cases hp : o.nPrincipal = 0
      · rw [if_pos hp] at h
        rw [ih acc h, interestFormula_cons, hp]
        simp
      · rw [if_neg hp] at h
        by_cases hc : (!(MoneyRange maxMoney o.nValue) || !(MoneyRange maxMoney o.nPrincipal)
            || !(MoneyRange maxMoney
                  (if o.nPrincipal < o.nValue then acc + (o.nValue - o.nPrincipal) else acc))) = true
        · rw [if_pos hc] at h
          cases h
        · rw [if_neg hc] at h
          simp only [Bool.or_eq_true, Bool.not_eq_true', not_or, Bool.not_eq_false] at hc
          have hpr : MoneyRange maxMoney o.nPrincipal = true := hc.1.2
          simp only [MoneyRange, Bool.and_eq_true, decide_eq_true_eq] at hpr
          have hppos : (0:Amount) < o.nPrincipal := lt_of_le_of_ne hpr.1 (Ne.symm hp)
          rw [ih _ h, interestFormula_cons, if_pos hppos]
          by_cases hv : o.nPrincipal < o.nValue
          · rw [if_pos hv, max_eq_right (sub_nonneg.mpr (le_of_lt hv))]
            ring
          · rw [if_neg hv, max_eq_left (sub_nonpos.mpr (le_of_not_lt hv))]
            ring

/-- C8: the claim states that `GetValueOut` and `GetInterest` raise
exactly when some examined output value, principal, or running sum leaves
`[0, MAX_MONEY]`. It is false for `GetValueOut`, which never examines
principals: with `MAX_MONEY = 10`, a transaction with one output of value
1 and principal 11 has an out-of-range principal on an examined output,
yet `GetValueOut` succeeds. -/
theorem C8_counterexample :
    (c8txBad.vout.any fun o => !(MoneyRange 10 o.nPrincipal)) = true
      ∧ c8txBad.GetValueOut 10 = Except.ok 1 :=
  ⟨by decide, by rfl⟩

/-- C8 (amended): `GetValueOut` raises exactly when some examined output
VALUE or the running value sum leaves `[0, MAX_MONEY]` (principals are
never checked); `GetInterest` returns 0 for a coinbase without checks, and
otherwise raises exactly when some output with nonzero principal has its
value, its principal, or the running interest sum out of range (outputs
with zero principal are skipped unchecked); on success `GetValueOut`
returns the sum of the output values and `GetInterest` returns
`max(0, value - principal)` summed over outputs with positive principal. -/
theorem C8_amended (maxMoney : Amount) (tx : CTransaction) :
    ((∃ msg, tx.GetValueOut maxMoney = Except.error msg) ↔
        (∃ k, k < tx.vout.length ∧
          (MoneyRange maxMoney (tx.vout.getD k nullTxOut).nValue = false
            ∨ MoneyRange maxMoney (valueOutSum (tx.vout.take (k + 1))) = false)))
    ∧ (∀ v, tx.GetValueOut maxMoney = Except.ok v → v = valueOutSum tx.vout)
    ∧ (tx.IsCoinBase = true → tx.GetInterest maxMoney = Except.ok 0)
    ∧ (tx.IsCoinBase = false →
        ((∃ msg, tx.GetInterest maxMoney = Except.error msg) ↔
          (∃ k, k < tx.vout.length ∧ (tx.vout.getD k nullTxOut).nPrincipal ≠ 0 ∧
            (MoneyRange maxMoney (tx.vout.getD k nullTxOut).nValue = false
              ∨ MoneyRange maxMoney (tx.vout.getD k nullTxOut).nPrincipal = false
              ∨ MoneyRange maxMoney (interestOfOutputs (tx.vout.take (k + 1))) = false))))
    ∧ (tx.IsCoinBase = false →
        ∀ v, tx.GetInterest maxMoney = Except.ok v → v = interestFormula tx.vout) := by
  refine ⟨?_, ?_, ?_, ?_, ?_⟩
  · simpa [CTransaction.GetValueOut] using getValueOutLoop_error_iff maxMoney tx.vout 0
  · intro v hv
    simpa using getValueOutLoop_ok maxMoney tx.vout 0 v hv
  · intro hcb
    simp [CTransaction.GetInterest, hcb]
  · intro hcb
    simpa [CTransaction.GetInterest, hcb] using getInterestLoop_error_iff maxMoney tx.vout 0
  · intro hcb v hv
    simp only [CTransaction.GetInterest, hcb, Bool.false_eq_true, if_false] at hv
    simpa using getInterestLoop_ok_spec maxMoney tx.vout 0 v hv

theorem C8_amended_witness :
    c8txCoinbase.GetInterest 100 = Except.ok 0
      ∧ (12 : Amount) = valueOutSum c8txPlain.vout
      ∧ (5 : Amount) = interestFormula c8txPlain.vout :=
  ⟨(C8_amended 100 c8txCoinbase).2.2.1 (by decide),
   (C8_amended 100 c8txPlain).2.1 12 (by rfl),
   (C8_amended 100 c8txPlain).2.2.2.2 (by decide) 5 (by rfl)⟩

theorem centuryForBlock_eq_claim (c : ConsensusParams) (h : Nat)
    (hbpc : 0 < c.nBlocksPerCentury) (h1 : 1 ≤ h) (h32 : h < 2 ^ 32) :
    centuryForBlock c h = centuryClaim c h := by
  unfold centuryForBlock centuryClaim
  rw [if_neg (by omega)]
  have e1 : h + (2 ^ 32 - 1) = (h - 1) + 2 ^ 32 := by omega
  rw [e1, Nat.add_mod_right, Nat.mod_eq_of_lt (by omega)]
  have e2 : h + c.nBlocksPerCentury - 1 = (h - 1) + c.nBlocksPerCentury := by omega
  rw [e2, Nat.add_div_right _ hbpc]

set_option exponentiation.threshold 20000 in
set_option maxRecDepth 20000 in
/-- C1 is false as stated: on main, height 0 wraps (`uint32` subtraction)
to century `(2^32 - 1) / 288000 + 1 = 14914` with subsidy 0, not century 1
with subsidy `1560 * COIN`; and the claimed bound `921.1644 * COIN` fails
at height 1, where the subsidy is `1560 * COIN`. -/
theorem C1_counterexample :
    centuryForBlock mainConsensus 0 = 14914
      ∧ OldChainSubsidyForBlock mainConsensus 0 = 0
      ∧ centuryClaim mainConsensus 0 = 1
      ∧ subsidyClaim mainConsensus 0 = 1560 * COIN
      ∧ OldChainSubsidyForBlock mainConsensus 1 = 1560 * COIN
      ∧ ¬(OldChainSubsidyForBlock mainConsensus 1 ≤ 92116440000) := by
  refine ⟨by decide, ?_, by decide, by decide, by decide, by decide⟩
  have hz : (156000000000 * 9 ^ 14913) / 10 ^ 14913 = (0 : Nat) := by
    apply Nat.div_eq_of_lt
    decide
  unfold OldChainSubsidyForBlock
  rw [show centuryForBlock mainConsensus 0 - 1 = 14913 from by decide, hz]
  rfl

/-- C1 (amended): for every height `1 ≤ h < 2^32` the subsidy equals the
claimed formula `floor(1560 * COIN * 0.9 ^ (century(h) - 1))` with
`century(h) = ceiling(h / blocksPerCentury)`; the uniform bound is
`subsidy(h) ≤ 1560 * COIN` (not `921.1644 * COIN`, which fails below
century 6), and height 0 falls under the `uint32` wraparound of
`centuryForBlock`, not under century 1. -/
theorem C1_amended (c : ConsensusParams) (h : Nat)
    (hbpc : 0 < c.nBlocksPerCentury) (h1 : 1 ≤ h) (h32 : h < 2 ^ 32) :
    OldChainSubsidyForBlock c h = subsidyClaim c h
      ∧ OldChainSubsidyForBlock c h ≤ 1560 * COIN := by
  constructor
  · unfold OldChainSubsidyForBlock subsidyClaim
    rw [centuryForBlock_eq_claim c h hbpc h1 h32]
  · unfold OldChainSubsidyForBlock
    have h9 : (9:Nat) ^ (centuryForBlock c h - 1) ≤ 10 ^ (centuryForBlock c h - 1) :=
      Nat.pow_le_pow_left (by omega) _
    have hdiv : (156000000000 * 9 ^ (centuryForBlock c h - 1))
        / 10 ^ (centuryForBlock c h - 1) ≤ 156000000000 := by
      calc (156000000000 * 9 ^ (centuryForBlock c h - 1)) / 10 ^ (centuryForBlock c h - 1)
          ≤ (156000000000 * 10 ^ (centuryForBlock c h - 1)) / 10 ^ (centuryForBlock c h - 1) :=
            Nat.div_le_div_right (Nat.mul_le_mul_left _ h9)
        _ = 156000000000 := Nat.mul_div_cancel _ (Nat.pos_pow_of_pos _ (by omega))
    have hcast : ((156000000000 * 9 ^ (centuryForBlock c h - 1))
        / 10 ^ (centuryForBlock c h - 1) : Nat) ≤ ((156000000000 : Nat) : Int) := by
      exact_mod_cast hdiv
    calc ((156000000000 * 9 ^ (centuryForBlock c h - 1))
          / 10 ^ (centuryForBlock c h - 1) : Nat) ≤ ((156000000000 : Nat) : Int) := hcast
      _ = 1560 * COIN := by norm_num [COIN]

theorem C1_amended_witness :
    OldChainSubsidyForBlock mainConsensus 1 = subsidyClaim mainConsensus 1
      ∧ OldChainSubsidyForBlock mainConsensus 1 ≤ 1560 * COIN :=
  C1_amended mainConsensus 1 (by decide) (by decide) (by decide)

/-- C6 is false as stated: on main the tiers measured in blocks are
`16 * 960 = 15360, ...`, not the literal sequence
`(16, 32, 64, 128, 256, 512, 1024, 1024 * blocksPerDay)`. -/
theorem C6_counterexample :
    mainConsensus.nLockInterestBlocksThreshould ≠ lockThresholdsClaim mainConsensus := by
  decide

/-- C6 (amended): on every network the lock tiers, in blocks, are the
non-decreasing sequence
`(16, 32, 64, 128, 256, 512, 1024, 1024) * blocksPerDay` (the last two
tiers coincide at `1024 * blocksPerDay`). -/
theorem C6_amended :
    (mainConsensus.nLockInterestBlocksThreshould = lockThresholdsSrc mainConsensus.nBlocksPerDay
      ∧ List.Sorted (· ≤ ·) mainConsensus.nLockInterestBlocksThreshould)
    ∧ (testConsensus.nLockInterestBlocksThreshould = lockThresholdsSrc testConsensus.nBlocksPerDay
      ∧ List.Sorted (· ≤ ·) testConsensus.nLockInterestBlocksThreshould)
    ∧ (regtestConsensus.nLockInterestBlocksThreshould
          = lockThresholdsSrc regtestConsensus.nBlocksPerDay
      ∧ List.Sorted (· ≤ ·) regtestConsensus.nLockInterestBlocksThreshould) := by
  refine ⟨⟨by decide, ?_⟩, ⟨by decide, ?_⟩, ⟨by decide, ?_⟩⟩ <;> decide

/-- C7: on every parameter set with the shared tier shape and a positive
`blocksPerDay`, `AdjustToLockInterestThreshold` returns 0 when no tier is
at most `lockBlocks`, and otherwise returns a tier that is at most
`lockBlocks` and at least every tier that is at most `lockBlocks` (the
largest such tier); consequently `getlockinterest` with `lockdays = 16`
reports `locktime = 16 * blocksPerDay`. -/
theorem C7_adjust_spec (c : ConsensusParams) (lockBlocks : Int)
    (hshape : c.nLockInterestBlocksThreshould = lockThresholdsSrc c.nBlocksPerDay)
    (hbpd : 0 < c.nBlocksPerDay) :
    ((∀ t ∈ c.nLockInterestBlocksThreshould, ¬(t ≤ lockBlocks)) →
        AdjustToLockInterestThreshold c lockBlocks = 0)
    ∧ (∀ t ∈ c.nLockInterestBlocksThreshould, t ≤ lockBlocks →
        (t ≤ AdjustToLockInterestThreshold c lockBlocks
          ∧ AdjustToLockInterestThreshold c lockBlocks ∈ c.nLockInterestBlocksThreshould
          ∧ AdjustToLockInterestThreshold c lockBlocks ≤ lockBlocks))
    ∧ getlockinterestLocktime c 16 = Except.ok (16 * (c.nBlocksPerDay : Int)) := by
  have hb : (0:Int) < (c.nBlocksPerDay : Int) := by exact_mod_cast hbpd
  have g7 : c.nLockInterestBlocksThreshould.getD 7 0 = 1024 * (c.nBlocksPerDay : Int) := by
    rw [hshape]; rfl
  have g6 : c.nLockInterestBlocksThreshould.getD 6 0 = 1024 * (c.nBlocksPerDay : Int) := by
    rw [hshape]; rfl
  have g5 : c.nLockInterestBlocksThreshould.getD 5 0 = 512 * (c.nBlocksPerDay : Int) := by
    rw [hshape]; rfl
  have g4 : c.nLockInterestBlocksThreshould.getD 4 0 = 256 * (c.nBlocksPerDay : Int) := by
    rw [hshape]; rfl
  have g3 : c.nLockInterestBlocksThreshould.getD 3 0 = 128 * (c.nBlocksPerDay : Int) := by
    rw [hshape]; rfl
  have g2 : c.nLockInterestBlocksThreshould.getD 2 0 = 64 * (c.nBlocksPerDay : Int) := by
    rw [hshape]; rfl
  have g1 : c.nLockInterestBlocksThreshould.getD 1 0 = 32 * (c.nBlocksPerDay : Int) := by
    rw [hshape]; rfl
  have g0 : c.nLockInterestBlocksThreshould.getD 0 0 = 16 * (c.nBlocksPerDay : Int) := by
    rw [hshape]; rfl
  have hlock : getlockinterestLocktime c 16 = Except.ok (16 * (c.nBlocksPerDay : Int)) := by
    unfold getlockinterestLocktime
    rw [if_neg (by omega)]
    refine congrArg Except.ok ?_
    unfold AdjustToLockInterestThreshold
    rw [g7, g6, g5, g4, g3, g2, g1, g0]
    split_ifs <;> omega
  refine ⟨?_, ?_, hlock⟩
  · intro hall
    rw [hshape] at hall
    simp only [lockThresholdsSrc, List.forall_mem_cons, List.forall_mem_nil] at hall
    obtain ⟨n0, n1, n2, n3, n4, n5, n6, n7, -⟩ := hall
    unfold AdjustToLockInterestThreshold
    rw [g7, g6, g5, g4, g3, g2, g1, g0]
    split_ifs <;> omega
  · intro t ht hle
    rw [hshape] at ht
    simp only [lockThresholdsSrc, List.mem_cons, List.not_mem_nil, or_false] at ht
    unfold AdjustToLockInterestThreshold
    rw [g7, g6, g5, g4, g3, g2, g1, g0, hshape]
    simp only [lockThresholdsSrc, List.mem_cons, List.not_mem_nil, or_false]
    split_ifs with h7 h6 h5 h4 h3 h2 h1 h0 <;> omega

theorem C7_adjust_spec_witness :
    ((∀ t ∈ mainConsensus.nLockInterestBlocksThreshould, ¬(t ≤ (0:Int))) →
        AdjustToLockInterestThreshold mainConsensus 0 = 0)
    ∧ (∀ t ∈ mainConsensus.nLockInterestBlocksThreshould, t ≤ (0:Int) →
        (t ≤ AdjustToLockInterestThreshold mainConsensus 0
          ∧ AdjustToLockInterestThreshold mainConsensus 0
              ∈ mainConsensus.nLockInterestBlocksThreshould
          ∧ AdjustToLockInterestThreshold mainConsensus 0 ≤ (0:Int)))
    ∧ getlockinterestLocktime mainConsensus 16
        = Except.ok (16 * (mainConsensus.nBlocksPerDay : Int)) :=
  C7_adjust_spec mainConsensus 0 (by decide) (by decide)

/-- C5 is false as stated: `AddWork` refuses to insert only when an
existing entry matches on BOTH `blockEthash` and `boundary`. With an
Ethash function sending every block to hash 7, adding the same block
twice with boundaries 5 and 6 leaves the registry with two entries whose
`blockEthash` are both 7: the second `AddWork` inserted a new entry whose
`blockEthash` equals that of an entry already in the list. -/
theorem C5_counterexample :
    (∃ w ∈ (AddWork (fun _ => 7) [] cBlock0 5).1, w.blockEthash = 7)
      ∧ ((AddWork (fun _ => 7) ((AddWork (fun _ => 7) [] cBlock0 5).1) cBlock0 6).1).length = 2
      ∧ ((AddWork (fun _ => 7) ((AddWork (fun _ => 7) [] cBlock0 5).1) cBlock0 6).1).map
          Work.blockEthash = [7, 7] := by
  refine ⟨⟨{ block := cBlock0, blockEthash := 7, boundary := 5,
             done := false, miningThreads := 0, deprecated := false }, ?_, rfl⟩, ?_, ?_⟩
  · decide
  · decide
  · decide

/-- C5 (amended): `AddWork` never inserts a new entry whose
(`blockEthash`, `boundary`) pair equals that of an entry already in the
list; hence when the boundary of every entry, and of the call, is a
function of the `blockEthash` (as holds for the actual call sites, where
`boundary` derives from `nBits` of the same base header that is hashed),
`AddWork` preserves the uniqueness of `blockEthash` across the registry. -/
theorem C5_amended (ethashOf : CBlock → Nat) (f : Nat → Nat) (lw : List Work)
    (block : CBlock) (boundary : Nat)
    (hf : ∀ w ∈ lw, w.boundary = f w.blockEthash)
    (hb : boundary = f (ethashOf block))
    (huniq : (lw.map Work.blockEthash).Nodup) :
    ((AddWork ethashOf lw block boundary).1.map Work.blockEthash).Nodup
      ∧ ∀ w ∈ (AddWork ethashOf lw block boundary).1, w.boundary = f w.blockEthash := by
  cases hfind : lw.find? (fun w => w.blockEthash == ethashOf block && w.boundary == boundary) with
  | some w =>
      have hred : (AddWork ethashOf lw block boundary).1 = lw := by
        simp [AddWork, hfind]
      rw [hred]
      exact ⟨huniq, hf⟩
  | none =>
      have hnone := List.find?_eq_none.mp hfind
      have hred : (AddWork ethashOf lw block boundary).1
          = lw ++ [{ block := block, blockEthash := ethashOf block, boundary := boundary,
                     done := false, miningThreads := 0, deprecated := false }] := by
        simp [AddWork, hfind]
      rw [hred]
      constructor
      · rw [List.map_append]
        refine List.Nodup.append huniq (List.nodup_singleton _) ?_
        intro a ha hain
        have ha2 : a = ethashOf block := by simpa using hain
        subst ha2
        obtain ⟨w, hw, hwe⟩ := List.mem_map.mp ha
        have hnp := hnone w hw
        simp only [Bool.and_eq_true, beq_iff_eq, not_and] at hnp
        exact hnp hwe (by rw [hf w hw, hwe, hb])
      · intro w hw
        rcases List.mem_append.mp hw with h1 | h2
        · exact hf w h1
        · have hw2 := List.mem_singleton.mp h2
          subst hw2
          exact hb

theorem C5_amended_witness :
    ((AddWork (fun _ => 7) [] cBlock0 9).1.map Work.blockEthash).Nodup
      ∧ ∀ w ∈ (AddWork (fun _ => 7) [] cBlock0 9).1,
          w.boundary = (fun _ => (9 : Nat)) w.blockEthash :=
  C5_amended (fun _ => 7) (fun _ => 9) [] cBlock0 9 (by simp) (by rfl) (by simp)

/-- C9: when a solved block's `hashPrevBlock` differs from the tip hash,
`ProcessBlockFound` returns false without invoking `ProcessNewBlock`;
`ProcessNewBlock` is invoked exactly when the parent matches the tip; and
a true return implies both that the parent matched and that
`ProcessNewBlock` accepted the block. -/
theorem C9_processBlockFound (chainTipHash : Nat) (processNewBlock : CBlock → Bool)
    (b : CBlock) :
    (b.hashPrevBlock ≠ chainTipHash →
        ProcessBlockFound chainTipHash processNewBlock b = (false, false))
    ∧ ((ProcessBlockFound chainTipHash processNewBlock b).2 = true
        ↔ b.hashPrevBlock = chainTipHash)
    ∧ ((ProcessBlockFound chainTipHash processNewBlock b).1 = true →
        (b.hashPrevBlock = chainTipHash ∧ processNewBlock b = true)) := by
  unfold ProcessBlockFound
  by_cases hp : b.hashPrevBlock ≠ chainTipHash
  · rw [if_pos hp]
    exact ⟨fun _ => rfl, by simpa using hp, by simp⟩
  · rw [if_neg hp]
    push_neg at hp
    exact ⟨fun hcon => absurd hp hcon, by simpa using hp, fun h1 => ⟨hp, h1⟩⟩

theorem C9_witness :
    ProcessBlockFound 0 (fun _ => true) cBlockStale = (false, false) :=
  (C9_processBlockFound 0 (fun _ => true) cBlockStale).1 (by decide)

theorem SetWorkDone_not_mem (lw : List Work) (blockEthash : Nat)
    (habs : ∀ w ∈ lw, w.blockEthash ≠ blockEthash) :
    SetWorkDone lw blockEthash = lw := by
  induction lw with
  | nil => rfl
  | cons a t ih =>
      have ha : a.blockEthash ≠ blockEthash := habs a (by simp)
      have ht := ih (fun w hw => habs w (by simp [hw]))
      simp only [SetWorkDone, List.map_cons, if_neg ha] at *
      rw [ht]

theorem UpdateWork_not_mem (lw : List Work) (blockEthash nNonce mixHash : Nat)
    (habs : ∀ w ∈ lw, w.blockEthash ≠ blockEthash) :
    UpdateWork lw blockEthash nNonce mixHash = lw := by
  induction lw with
  | nil => rfl
  | cons a t ih =>
      have ha : a.blockEthash ≠ blockEthash := habs a (by simp)
      have ht := ih (fun w hw => habs w (by simp [hw]))
      simp only [UpdateWork, List.map_cons, if_neg ha] at *
      rw [ht]

/-- C10: submitting a `blockEthash` not present in the registry returns
false and leaves every entry unchanged (no done flag, nonce or mix hash
is written, since `SetWorkDone` and `UpdateWork` only touch matching
entries) and hands no block to `ProcessBlockFound`. -/
theorem C10_submitWork (chainTipHash : Nat) (processNewBlock : CBlock → Bool)
    (lw : List Work) (blockEthash nNonce mixHash : Nat)
    (habs : ∀ w ∈ lw, w.blockEthash ≠ blockEthash) :
    SubmitWork chainTipHash processNewBlock lw blockEthash nNonce mixHash
      = (false, lw, false) := by
  have hset := SetWorkDone_not_mem lw blockEthash habs
  have hupd := UpdateWork_not_mem lw blockEthash nNonce mixHash habs
  have hnone : GetWorkByEthash lw blockEthash = none := by
    unfold GetWorkByEthash
    exact List.find?_eq_none.mpr (fun w hw => by simpa using habs w hw)
  simp [SubmitWork, hset, hupd, hnone]

theorem C10_submitWork_witness :
    SubmitWork 0 (fun _ => true) [cWork3] 9 1 2 = (false, [cWork3], false) :=
  C10_submitWork 0 (fun _ => true) [cWork3] 9 1 2 (by decide)

theorem foldl_AddToBlock (st : BState) (l : List MempoolEntry) :
    (List.foldl AddToBlock st l).vtxEntries = st.vtxEntries ++ l
      ∧ (List.foldl AddToBlock st l).inBlock = st.inBlock ++ l.map MempoolEntry.txid
      ∧ (List.foldl AddToBlock st l).nFees = st.nFees + (l.map MempoolEntry.fee).sum
      ∧ (List.foldl AddToBlock st l).nInterest
          = st.nInterest + (l.map MempoolEntry.interest).sum := by
  induction l generalizing st with
  | nil => simp
  | cons a t ih =>
      obtain ⟨h1, h2, h3, h4⟩ := ih (AddToBlock st a)
      refine ⟨?_, ?_, ?_, ?_⟩
      · rw [List.foldl_cons, h1]
        simp [AddToBlock]
      · rw [List.foldl_cons, h2]
        simp [AddToBlock]
      · rw [List.foldl_cons, h3]
        simp [AddToBlock, add_assoc]
      · rw [List.foldl_cons, h4]
        simp [AddToBlock, add_assoc]

theorem TestForBlock_snd (ctx : BuildCtx) (st : BState) (e : MempoolEntry) :
    ((TestForBlock ctx st e).2).vtxEntries = st.vtxEntries
      ∧ ((TestForBlock ctx st e).2).inBlock = st.inBlock
      ∧ ((TestForBlock ctx st e).2).nFees = st.nFees
      ∧ ((TestForBlock ctx st e).2).nInterest = st.nInterest := by
  unfold TestForBlock
  dsimp only
  split_ifs <;> exact ⟨rfl, rfl, rfl, rfl⟩

theorem buildStep_basicInv (ctx : BuildCtx) {st st2 : BState} (hstep : BuildStep ctx st st2)
    (hinv : BuilderBasicInv ctx st) : BuilderBasicInv ctx st2 := by
  obtain ⟨hf, hi, hib, hsub⟩ := hinv
  cases hstep with
  | priorityAdd e hpool hnotin hnotfin hdep htest =>
      refine ⟨?_, ?_, ?_, ?_⟩
      · simp [AddToBlock, hf]
      · simp [AddToBlock, hi]
      · simp [AddToBlock, hib]
      · intro x hx
        rcases (by simpa [AddToBlock] using hx : x ∈ st.vtxEntries ∨ x = e) with h1 | h2
        · exact hsub x h1
        · rw [h2]
          exact hpool
  | priorityCheckFail e hpool hnotfin htest =>
      obtain ⟨t1, t2, t3, t4⟩ := TestForBlock_snd ctx st e
      exact ⟨by rw [t3, t1, hf], by rw [t4, t1, hi], by rw [t2, t1, hib],
        by rw [t1]; exact hsub⟩
  | packageAdd iter anc pS pOps hpool hnotin hanc hnodup htp htpt =>
      obtain ⟨f1, f2, f3, f4⟩ := foldl_AddToBlock st (SortForBlock anc)
      refine ⟨?_, ?_, ?_, ?_⟩
      · rw [f3, f1, hf]
        simp
      · rw [f4, f1, hi]
        simp
      · rw [f2, f1, hib]
        simp
      · intro x hx
        rw [f1] at hx
        rcases List.mem_append.mp hx with h1 | h2
        · exact hsub x h1
        · have h3 : x ∈ anc := by
            unfold SortForBlock at h2
            exact List.mem_mergeSort.mp h2
          exact ((hanc x).mp h3).1

theorem reachable_basicInv (ctx : BuildCtx) {st : BState}
    (h : BuildReachable ctx resetBlock st) : BuilderBasicInv ctx st := by
  induction h with
  | refl =>
      refine ⟨rfl, rfl, rfl, fun e he => absurd he ?_⟩
      simp [resetBlock]
  | tail hsteps hstep ih => exact buildStep_basicInv ctx hstep ih

/-- C2: every template has a coinbase at slot 0 with exactly one output,
whose value is the sum of the fees of the selected mempool entries (the
other transactions of the block, also recorded in `vTxFees`) plus the
subsidy at the height of the new block. -/
theorem C2_coinbaseValue (ctx : BuildCtx) (subsidy : Nat → Amount)
    (pindexPrev : BlockIndex) (stf : BState)
    (h : BuildReachable ctx resetBlock stf) :
    (CreateNewBlockResult subsidy pindexPrev stf).block.vtx
        = createCoinbaseTx subsidy (pindexPrev.nHeight + 1) stf.nFees
            :: stf.vtxEntries.map (fun e => e.tx)
      ∧ (createCoinbaseTx subsidy (pindexPrev.nHeight + 1) stf.nFees).vout.length = 1
      ∧ ((createCoinbaseTx subsidy (pindexPrev.nHeight + 1) stf.nFees).vout.getD 0
            nullTxOut).nValue
          = (stf.vtxEntries.map MempoolEntry.fee).sum
              + subsidy (CreateNewBlockResult subsidy pindexPrev stf).block.nBlockHeight
      ∧ (CreateNewBlockResult subsidy pindexPrev stf).vTxFees.tail
          = stf.vtxEntries.map MempoolEntry.fee := by
  have hf := (reachable_basicInv ctx h).1
  refine ⟨rfl, rfl, ?_, rfl⟩
  simp [createCoinbaseTx, CreateNewBlockResult, hf]

theorem C2_coinbaseValue_witness :
    (CreateNewBlockResult (fun _ => 5) prevIndex0 resetBlock).block.vtx
        = createCoinbaseTx (fun _ => 5) (prevIndex0.nHeight + 1) resetBlock.nFees
            :: resetBlock.vtxEntries.map (fun e => e.tx)
      ∧ (createCoinbaseTx (fun _ => 5) (prevIndex0.nHeight + 1) resetBlock.nFees).vout.length = 1
      ∧ ((createCoinbaseTx (fun _ => 5) (prevIndex0.nHeight + 1) resetBlock.nFees).vout.getD 0
            nullTxOut).nValue
          = (resetBlock.vtxEntries.map MempoolEntry.fee).sum
              + (fun _ => (5 : Amount))
                  (CreateNewBlockResult (fun _ => 5) prevIndex0 resetBlock).block.nBlockHeight
      ∧ (CreateNewBlockResult (fun _ => 5) prevIndex0 resetBlock).vTxFees.tail
          = resetBlock.vtxEntries.map MempoolEntry.fee :=
  C2_coinbaseValue emptyBuildCtx (fun _ => 5) prevIndex0 resetBlock Relation.ReflTransGen.refl

theorem ancestorOf_mem_left {pool : List MempoolEntry} {a b : MempoolEntry}
    (h : AncestorOf pool a b) : a ∈ pool := by
  have h2 : Relation.TransGen (ParentRel pool) a b := h
  clear h
  induction h2 with
  | single hr => exact hr.1
  | tail ht hr ih => exact ih

theorem buildStep_orderedInv (ctx : BuildCtx)
    (hpoolids : (ctx.pool.map MempoolEntry.txid).Nodup)
    (hcount : ∀ a b : MempoolEntry, AncestorOf ctx.pool a b →
        a.countWithAncestors < b.countWithAncestors)
    {st st2 : BState} (hstep : BuildStep ctx st st2)
    (hbasic : BuilderBasicInv ctx st)
    (hinv : OrderedInv ctx st) : OrderedInv ctx st2 := by
  obtain ⟨hf, hi, hib, hsub⟩ := hbasic
  obtain ⟨hclosed, hpair⟩ := hinv
  have hpin : ∀ p : MempoolEntry, p ∈ ctx.pool → p.txid ∈ st.inBlock → p ∈ st.vtxEntries := by
    intro p hp hpid
    rw [hib] at hpid
    obtain ⟨x, hx, hxid⟩ := List.mem_map.mp hpid
    have hxp : x = p := List.inj_on_of_nodup_map hpoolids (hsub x hx) hp hxid
    rwa [hxp] at hx
  have hclosed2 : ∀ p : MempoolEntry, p ∈ ctx.pool → p.txid ∈ st.inBlock →
      ∀ a, AncestorOf ctx.pool a p → a.txid ∈ st.inBlock := by
    intro p hp hpid a ha
    exact hclosed p (hpin p hp hpid) a ha
  cases hstep with
  | priorityAdd e hpool hnotin hnotfin hdep htest =>
      have hpar : ∀ p : MempoolEntry, p ∈ ctx.pool → p.txid ∈ e.parents →
          p.txid ∈ st.inBlock := by
        intro p hp hpe
        have hany := hdep
        unfold isStillDependent at hany
        rw [List.any_eq_false] at hany
        have hnp := hany p.txid hpe
        have hanyq : (ctx.pool.any fun q => q.txid == p.txid) = true :=
          List.any_eq_true.mpr ⟨p, hp, by simp⟩
        rw [hanyq, Bool.true_and, Bool.not_eq_true', Bool.not_eq_false] at hnp
        simpa using hnp
      refine ⟨?_, ?_⟩
      · intro x hx a ha
        have hxsplit : x ∈ st.vtxEntries ∨ x = e := by simpa [AddToBlock] using hx
        have hnewib : (AddToBlock st e).inBlock = st.inBlock ++ [e.txid] := rfl
        rw [hnewib, List.mem_append]
        rcases hxsplit with h1 | h1
        · exact Or.inl (hclosed x h1 a ha)
        · subst h1
          obtain ⟨p, hap, hpe⟩ := Relation.TransGen.tail'_iff.mp ha
          have hpid : p.txid ∈ st.inBlock := hpar p hpe.1 hpe.2.2
          rcases Relation.reflTransGen_iff_eq_or_transGen.mp hap with heq | htg
          · exact Or.inl (heq ▸ hpid)
          · exact Or.inl (hclosed2 p hpe.1 hpid a htg)
      · have hvtx : (AddToBlock st e).vtxEntries = st.vtxEntries ++ [e] := rfl
        rw [hvtx, List.pairwise_append]
        refine ⟨hpair, List.pairwise_singleton _ _, ?_⟩
        intro x hxv b hb
        rw [List.mem_singleton.mp hb]
        intro hanc2
        exact hnotin (hclosed x hxv e hanc2)
  | priorityCheckFail e hpool hnotfin htest =>
      obtain ⟨t1, t2, _, _⟩ := TestForBlock_snd ctx st e
      constructor
      · intro x hx a ha
        rw [t2]
        rw [t1] at hx
        exact hclosed x hx a ha
      · rw [t1]
        exact hpair
  | packageAdd iter anc pS pOps hpool hnotin hanc hnodup htp htpt =>
      obtain ⟨f1, f2, _, _⟩ := foldl_AddToBlock st (SortForBlock anc)
      have hmemP : ∀ a : MempoolEntry, a ∈ SortForBlock anc ↔ a ∈ anc := by
        intro a
        unfold SortForBlock
        exact List.mem_mergeSort
      have hPnotin : ∀ b ∈ SortForBlock anc, b.txid ∉ st.inBlock := by
        intro b hb
        rcases ((hanc b).mp ((hmemP b).mp hb)).2 with h | h
        · rw [h]
          exact hnotin
        · exact h.2
      constructor
      · intro x hx a ha
        rw [f2, List.mem_append]
        rw [f1] at hx
        rcases List.mem_append.mp hx with h1 | h1
        · exact Or.inl (hclosed x h1 a ha)
        · have hxi := (hanc x).mp ((hmemP x).mp h1)
          have haIter : AncestorOf ctx.pool a iter := by
            rcases hxi.2 with heq | hxit
            · rw [heq] at ha
              exact ha
            · exact Relation.TransGen.trans ha hxit.1
          have hapool : a ∈ ctx.pool := ancestorOf_mem_left haIter
          by_cases haib : a.txid ∈ st.inBlock
          · exact Or.inl haib
          · refine Or.inr ?_
            have hain : a ∈ anc := (hanc a).mpr ⟨hapool, Or.inr ⟨haIter, haib⟩⟩
            exact List.mem_map.mpr ⟨a, (hmemP a).mpr hain, rfl⟩
      · rw [f1, List.pairwise_append]
        refine ⟨hpair, ?_, ?_⟩
        · have htrans : ∀ (a b c : MempoolEntry),
              (decide (a.countWithAncestors ≤ b.countWithAncestors)) = true →
              (decide (b.countWithAncestors ≤ c.countWithAncestors)) = true →
              (decide (a.countWithAncestors ≤ c.countWithAncestors)) = true := by
            intro a b c hab hbc
            simp only [decide_eq_true_eq] at *
            omega
          have htotal : ∀ (a b : MempoolEntry),
              ((decide (a.countWithAncestors ≤ b.countWithAncestors))
                || (decide (b.countWithAncestors ≤ a.countWithAncestors))) = true := by
            intro a b
            simp only [Bool.or_eq_true, decide_eq_true_eq]
            omega
          have hsorted := List.sorted_mergeSort htrans htotal anc
          unfold SortForBlock
          refine hsorted.imp ?_
          intro a b hab
          simp only [decide_eq_true_eq] at hab
          intro hanc2
          exact absurd (hcount b a hanc2) (by omega)
        · intro x hxv b hbP hanc2
          exact hPnotin b hbP (hclosed x hxv b hanc2)

theorem reachable_orderedInv (ctx : BuildCtx)
    (hpoolids : (ctx.pool.map MempoolEntry.txid).Nodup)
    (hcount : ∀ a b : MempoolEntry, AncestorOf ctx.pool a b →
        a.countWithAncestors < b.countWithAncestors)
    {st : BState} (h : BuildReachable ctx resetBlock st) : OrderedInv ctx st := by
  induction h with
  | refl =>
      refine ⟨fun x hx => absurd hx ?_, ?_⟩
      · simp [resetBlock]
      · exact List.Pairwise.nil
  | tail hsteps hstep ih =>
      exact buildStep_orderedInv ctx hpoolids hcount hstep (reachable_basicInv ctx hsteps) ih

/-- C4: in every builder state reachable by the two selection phases
(under the mempool invariants that transaction ids are unique and that
the cached ancestor count strictly increases along ancestry), whenever a
selected entry is an in-mempool ancestor of another selected entry it
occupies an earlier position: the emitted sequence is a topological order
of the in-block dependency relation. -/
theorem C4_topologicalOrder (ctx : BuildCtx)
    (hpoolids : (ctx.pool.map MempoolEntry.txid).Nodup)
    (hcount : ∀ a b : MempoolEntry, AncestorOf ctx.pool a b →
        a.countWithAncestors < b.countWithAncestors)
    (st : BState) (h : BuildReachable ctx resetBlock st) :
    ∀ (i j : Fin st.vtxEntries.length),
      AncestorOf ctx.pool (st.vtxEntries.get i) (st.vtxEntries.get j) →
        (i : Nat) < (j : Nat) := by
  intro i j hanc
  have hpair := (reachable_orderedInv ctx hpoolids hcount h).2
  rcases lt_trichotomy (i : Nat) (j : Nat) with hlt | heq | hgt
  · exact hlt
  · exfalso
    have hije : i = j := Fin.ext heq
    subst hije
    exact absurd (hcount _ _ hanc) (lt_irrefl _)
  · exfalso
    exact (List.pairwise_iff_get.mp hpair) j i (Fin.lt_def.mpr hgt) hanc

theorem C4_topologicalOrder_witness : (0 : Nat) < (1 : Nat) := by
  have hPR : ∀ a b : MempoolEntry, ParentRel pairBuildCtx.pool a b → a = entryA ∧ b = entryB := by
    rintro a b ⟨ha, hb, hpar⟩
    have ha2 : a = entryA ∨ a = entryB := by simpa [pairBuildCtx] using ha
    have hb2 : b = entryA ∨ b = entryB := by simpa [pairBuildCtx] using hb
    rcases ha2 with rfl | rfl <;> rcases hb2 with rfl | rfl
    · exact absurd hpar (by decide)
    · exact ⟨rfl, rfl⟩
    · exact absurd hpar (by decide)
    · exact absurd hpar (by decide)
  have hcount : ∀ a b : MempoolEntry, AncestorOf pairBuildCtx.pool a b →
      a.countWithAncestors < b.countWithAncestors := by
    intro a b hab
    have h2 : Relation.TransGen (ParentRel pairBuildCtx.pool) a b := hab
    clear hab
    induction h2 with
    | single hr =>
        obtain ⟨rfl, rfl⟩ := hPR _ _ hr
        decide
    | tail ht hr ih =>
        obtain ⟨rfl, rfl⟩ := hPR _ _ hr
        have h1 : entryA.countWithAncestors = 1 := rfl
        have h2 : entryB.countWithAncestors = 2 := rfl
        omega
  have step1 : BuildStep pairBuildCtx resetBlock (AddToBlock resetBlock entryA) :=
    BuildStep.priorityAdd resetBlock entryA (by decide) (by decide) rfl (by decide) (by decide)
  have step2 : BuildStep pairBuildCtx (AddToBlock resetBlock entryA)
      (AddToBlock (AddToBlock resetBlock entryA) entryB) :=
    BuildStep.priorityAdd (AddToBlock resetBlock entryA) entryB
      (by decide) (by decide) rfl (by decide) (by decide)
  have hreach : BuildReachable pairBuildCtx resetBlock
      (AddToBlock (AddToBlock resetBlock entryA) entryB) :=
    Relation.ReflTransGen.tail (Relation.ReflTransGen.tail Relation.ReflTransGen.refl step1) step2
  have hanc : AncestorOf pairBuildCtx.pool entryA entryB :=
    Relation.TransGen.single ⟨by decide, by decide, by decide⟩
  exact C4_topologicalOrder pairBuildCtx (by decide) hcount
    (AddToBlock (AddToBlock resetBlock entryA) entryB) hreach
    ⟨0, by decide⟩ ⟨1, by decide⟩ hanc

/-- C3: a block produced by `CreateNewBlock` on top of its parent carries
`chainInterest = parent.chainInterest + Σ interest of the selected
non-coinbase transactions`, where each interest is `max(0, value -
principal)` summed over outputs with positive principal (assuming the
cached per-entry interest agrees with `GetInterest`, which is maintained
by mempool code outside the sources); hence `chainInterest` never
decreases along a chain, and an accepted block respects the
`totalInterest` cap. -/
theorem C3_chainInterest (ctx : BuildCtx) (maxMoney totalInterest : Amount)
    (subsidy : Nat → Amount) (parent child : CBlock)
    (hcache : ∀ e ∈ ctx.pool, e.tx.GetInterest maxMoney = Except.ok e.interest)
    (hnoncb : ∀ e ∈ ctx.pool, e.tx.IsCoinBase = false)
    (hext : ChainExtension ctx totalInterest subsidy parent child) :
    (∃ stf : BState, BuildReachable ctx resetBlock stf
        ∧ child.nChainInterest = parent.nChainInterest
            + (stf.vtxEntries.map (fun e => interestFormula e.tx.vout)).sum)
      ∧ parent.nChainInterest ≤ child.nChainInterest
      ∧ child.nChainInterest ≤ totalInterest := by
  obtain ⟨prev, stf, hprev, hreach, hchild, hacc⟩ := hext
  obtain ⟨_, hi, _, hsub⟩ := reachable_basicInv ctx hreach
  have hmap : stf.vtxEntries.map MempoolEntry.interest
      = stf.vtxEntries.map (fun e => interestFormula e.tx.vout) := by
    apply List.map_congr_left
    intro e he
    have hcb := hnoncb e (hsub e he)
    have hok := hcache e (hsub e he)
    unfold CTransaction.GetInterest at hok
    rw [hcb] at hok
    simp only [Bool.false_eq_true, if_false] at hok
    simpa using getInterestLoop_ok_spec maxMoney e.tx.vout 0 e.interest hok
  have hchild2 : child.nChainInterest = prev.nChainInterest + stf.nInterest := by
    rw [hchild]
    rfl
  have hsum : child.nChainInterest = parent.nChainInterest
      + (stf.vtxEntries.map (fun e => interestFormula e.tx.vout)).sum := by
    rw [hchild2, hprev, hi, hmap]
  refine ⟨⟨stf, hreach, hsum⟩, ?_, hacc⟩
  rw [hsum]
  have hnn : (0:Amount) ≤ (stf.vtxEntries.map (fun e => interestFormula e.tx.vout)).sum := by
    apply List.sum_nonneg
    intro x hx
    obtain ⟨e, he, hxe⟩ := List.mem_map.mp hx
    rw [← hxe]
    exact interestFormula_nonneg _
  linarith

theorem C3_chainInterest_witness :
    (∃ stf : BState, BuildReachable emptyBuildCtx resetBlock stf
        ∧ (CreateNewBlockResult (fun _ => 5) prevIndex0 resetBlock).block.nChainInterest
            = cBlock0.nChainInterest
                + (stf.vtxEntries.map (fun e => interestFormula e.tx.vout)).sum)
      ∧ cBlock0.nChainInterest
          ≤ (CreateNewBlockResult (fun _ => 5) prevIndex0 resetBlock).block.nChainInterest
      ∧ (CreateNewBlockResult (fun _ => 5) prevIndex0 resetBlock).block.nChainInterest
          ≤ 240000000000000000 :=
  C3_chainInterest emptyBuildCtx 10 240000000000000000 (fun _ => 5) cBlock0
    ((CreateNewBlockResult (fun _ => 5) prevIndex0 resetBlock).block)
    (by simp [emptyBuildCtx]) (by simp [emptyBuildCtx])
    ⟨prevIndex0, resetBlock, rfl, Relation.ReflTransGen.refl, rfl,
      (by decide :
        ((CreateNewBlockResult (fun _ => 5) prevIndex0 resetBlock).block.nChainInterest
          ≤ (240000000000000000 : Amount)))⟩

end Platopia
